import Mathlib

/-!
# Verification of the Win3-Budget budgeting core

Shallow embedding of the repository's budgeting logic:
* `src/unnamed/part_002` (types.ts / constants.ts): the category model.
* `src/components/ExpenseTracker.tsx` (second half is App.tsx):
  `getIncomeForMonth`, `copyRecurringExpenses`.
* `src/components/AIAdvisor.tsx` (second half is Dashboard.tsx):
  monthly aggregation, cumulative savings series, category drill-down.
* `src/services/geminiService.ts`: statement-import post-processing,
  error translation, CSV payload truncation.

JS numbers are modelled as `ℚ`, JS objects / Maps as insertion-ordered
association lists, JS string operations as the corresponding operations
on `List Char`.
-/

namespace Budget

/-- JS `s.substring(0, n)`: the first `n` characters of `s`. -/
def jsSubstring (s : String) (n : Nat) : String :=
  String.mk (s.toList.take n)

/-- JS `s.startsWith(p)`. -/
def jsStartsWith (s p : String) : Bool :=
  s.toList.take p.toList.length == p.toList

/-- JS `s.trim()`: strip leading and trailing whitespace. -/
def jsTrim (s : String) : String :=
  String.mk (((s.toList.dropWhile Char.isWhitespace).reverse.dropWhile
    Char.isWhitespace).reverse)

/-- The four budget categories (types.ts `CategoryType`). -/
inductive CategoryType where
  | NEEDS
  | WANTS
  | SAVINGS
  | GIVING
deriving DecidableEq

/-- Target percentage of income per category (constants.ts `CATEGORIES`,
`percentage` fields: 0.40 / 0.30 / 0.20 / 0.10). -/
def percentage : CategoryType → ℚ
  | .NEEDS => 40 / 100
  | .WANTS => 30 / 100
  | .SAVINGS => 20 / 100
  | .GIVING => 10 / 100

/-- types.ts `Expense`.  `isRecurring?: boolean` is only ever used for its
truthiness, so `undefined` is identified with `false`. -/
structure Expense where
  id : String
  description : String
  amount : ℚ
  category : CategoryType
  date : String
  isRecurring : Bool
deriving DecidableEq

/-! ## Income history (App.tsx)

`incomeHistory : Record<string, number>` is modelled as an
insertion-ordered association list; `incomeHistory[k]` is `lookupVal`. -/

/-- JS property read `h[k]` on an object modelled as an association list
(`undefined` becomes `none`). -/
def lookupVal (h : List (String × ℚ)) (k : String) : Option ℚ :=
  (h.find? (fun p => p.1 == k)).map Prod.snd

/-! JS compares strings by code-unit lexicographic order (`a < b`,
`Array.prototype.sort` default on strings).  `lexLt` is that order on the
character lists; it is kernel-computable, unlike Mathlib's `String.ltb`. -/

/-- Lexicographic strict order on character lists (JS string `<`). -/
def lexLt : List Char → List Char → Bool
  | _, [] => false
  | [], _ :: _ => true
  | a :: as, b :: bs => decide (a < b) || (a == b && lexLt as bs)

/-- JS `a < b` on strings. -/
def strLt (a b : String) : Bool := lexLt a.toList b.toList

/-- JS `a <= b` on strings (total order: `a <= b ↔ ¬ b < a`). -/
def strLe (a b : String) : Bool := !(strLt b a)

theorem lexLt_irrefl : ∀ l : List Char, lexLt l l = false
  | [] => rfl
  | a :: as => by
    simp [lexLt, lexLt_irrefl as]

theorem lexLt_trans : ∀ {x y z : List Char},
    lexLt x y = true → lexLt y z = true → lexLt x z = true
  | _, _, [], _, hyz => by simp [lexLt] at hyz
  | _, [], _ :: _, hxy, _ => by simp [lexLt] at hxy
  | [], _ :: _, _ :: _, _, _ => rfl
  | a :: as, b :: bs, c :: cs, hxy, hyz => by
    simp only [lexLt, Bool.or_eq_true, Bool.and_eq_true, decide_eq_true_eq,
      beq_iff_eq] at hxy hyz ⊢
    rcases hxy with hab | ⟨rfl, hrec₁⟩
    · rcases hyz with hbc | ⟨rfl, _⟩
      · exact Or.inl (lt_trans hab hbc)
      · exact Or.inl hab
    · rcases hyz with hbc | ⟨rfl, hrec₂⟩
      · exact Or.inl hbc
      · exact Or.inr ⟨rfl, lexLt_trans hrec₁ hrec₂⟩

theorem lexLt_trichotomy : ∀ x y : List Char,
    lexLt x y = true ∨ x = y ∨ lexLt y x = true
  | [], [] => Or.inr (Or.inl rfl)
  | [], _ :: _ => Or.inl rfl
  | _ :: _, [] => Or.inr (Or.inr rfl)
  | a :: as, b :: bs => by
    rcases lt_trichotomy a b with hab | rfl | hba
    · exact Or.inl (by simp [lexLt, hab])
    · rcases lexLt_trichotomy as bs with h | rfl | h
      · exact Or.inl (by simp [lexLt, h])
      · exact Or.inr (Or.inl rfl)
      · exact Or.inr (Or.inr (by simp [lexLt, h]))
    · exact Or.inr (Or.inr (by simp [lexLt, hba]))

theorem lexLt_asymm {x y : List Char} (h : lexLt x y = true) :
    lexLt y x = false := by
  by_contra h'
  have h'' : lexLt y x = true := by
    cases hyx : lexLt y x with
    | false => exact absurd hyx h'
    | true => rfl
  have := lexLt_trans h h''
  rw [lexLt_irrefl] at this
  exact Bool.false_ne_true this

theorem strLe_refl (a : String) : strLe a a = true := by
  simp [strLe, strLt, lexLt_irrefl]

theorem strLe_trans {a b c : String} (h₁ : strLe a b = true)
    (h₂ : strLe b c = true) : strLe a c = true := by
  simp only [strLe, strLt, Bool.not_eq_true'] at h₁ h₂ ⊢
  cases hca : lexLt c.toList a.toList with
  | false => rfl
  | true =>
    rcases lexLt_trichotomy b.toList c.toList with hbc | heq | hcb
    · have h := lexLt_trans hbc hca
      rw [h₁] at h
      exact Bool.noConfusion h
    · rw [heq] at h₁
      rw [hca] at h₁
      exact Bool.noConfusion h₁
    · rw [h₂] at hcb
      exact Bool.noConfusion hcb

theorem strLe_total (a b : String) : strLe a b = true ∨ strLe b a = true := by
  simp only [strLe, strLt, Bool.not_eq_true']
  cases h₁ : lexLt b.toList a.toList with
  | false => exact Or.inl rfl
  | true =>
    cases h₂ : lexLt a.toList b.toList with
    | false => exact Or.inr rfl
    | true =>
      have h := lexLt_trans h₁ h₂
      rw [lexLt_irrefl] at h
      exact Bool.noConfusion h

theorem strLe_antisymm {a b : String} (h₁ : strLe a b = true)
    (h₂ : strLe b a = true) : a = b := by
  simp only [strLe, strLt, Bool.not_eq_true'] at h₁ h₂
  rcases lexLt_trichotomy a.toList b.toList with h | h | h
  · rw [h₂] at h
    exact absurd h (by simp)
  · exact String.toList_inj.mp h
  · rw [h₁] at h
    exact absurd h (by simp)

/-- App.tsx `getIncomeForMonth`, translated clause by clause:
1. exact match; 2. lone legacy `default` entry; 3. greatest prior
non-`default` key (sort the keys, filter `k < monthKey && k !== 'default'`,
take the last); 4. `incomeHistory['default'] || 0`.
(For a number `d`, JS `d || 0` equals `d`: both are `0` when `d = 0`.) -/
def getIncomeForMonth (h : List (String × ℚ)) (monthKey : String) : ℚ :=
  match lookupVal h monthKey with
  | some v => v
  | none =>
    if (lookupVal h "default").isSome ∧ h.length = 1 then
      (lookupVal h "default").getD 0
    else
      match (((h.map Prod.fst).mergeSort strLe).filter
          (fun k => strLt k monthKey && (k != "default"))).getLast? with
      | some k => (lookupVal h k).getD 0
      | none => (lookupVal h "default").getD 0

/-- The greatest element of a list of keys, `none` when empty. -/
def maxKey : List String → Option String
  | [] => none
  | k :: ks =>
    match maxKey ks with
    | none => some k
    | some m => some (if strLe k m then m else k)

/-- Modelled from the spec's words for claim C1 (spec §4.1): exact entry,
else lone legacy `default` entry, else the value under the greatest
non-`default` key strictly below the target, else `default`, else 0. -/
def resolveIncomeSpec (h : List (String × ℚ)) (monthKey : String) : ℚ :=
  match lookupVal h monthKey with
  | some v => v
  | none =>
    if h.length = 1 ∧ (lookupVal h "default").isSome then
      (lookupVal h "default").getD 0
    else
      match maxKey ((h.map Prod.fst).filter
          (fun k => (k != "default") && strLt k monthKey)) with
      | some k => (lookupVal h k).getD 0
      | none => (lookupVal h "default").getD 0

theorem maxKey_isSome {l : List String} (h : l ≠ []) : (maxKey l).isSome := by
  cases l with
  | nil => exact absurd rfl h
  | cons k ks =>
    cases hm : maxKey ks <;> simp [maxKey, hm]

theorem maxKey_eq_none_iff {l : List String} : maxKey l = none ↔ l = [] := by
  cases l with
  | nil => simp [maxKey]
  | cons k ks => cases hm : maxKey ks <;> simp [maxKey, hm]

theorem maxKey_mem : ∀ {l : List String} {m : String}, maxKey l = some m → m ∈ l
  | [], m, h => by simp [maxKey] at h
  | k :: ks, m, h => by
    cases hm : maxKey ks with
    | none => simp [maxKey, hm] at h; simp [h]
    | some m' =>
      simp only [maxKey, hm, Option.some.injEq] at h
      by_cases hle : strLe k m' = true
      · simp [hle] at h
        exact List.mem_cons_of_mem _ (h ▸ maxKey_mem hm)
      · simp [hle] at h
        simp [h]

theorem maxKey_ge : ∀ {l : List String} {m : String}, maxKey l = some m →
    ∀ x ∈ l, strLe x m = true
  | [], m, h => by simp [maxKey] at h
  | k :: ks, m, h => by
    intro x hx
    cases hm : maxKey ks with
    | none =>
      cases ks with
      | nil =>
        simp [maxKey] at h
        rcases List.mem_singleton.mp hx with rfl
        rw [← h]
        exact strLe_refl x
      | cons a as => exact absurd (maxKey_eq_none_iff.mp hm) (by simp)
    | some m' =>
      simp only [maxKey, hm, Option.some.injEq] at h
      rcases List.mem_cons.mp hx with rfl | hx'
      · by_cases hle : strLe x m' = true
        · simp [hle] at h; exact h ▸ hle
        · simp [hle] at h
          rw [← h]
          exact strLe_refl x
      · have h1 : strLe x m' = true := maxKey_ge hm x hx'
        by_cases hle : strLe k m' = true
        · simp [hle] at h; exact h ▸ h1
        · simp [hle] at h
          have hmk : strLe m' k = true :=
            (strLe_total m' k).resolve_right (fun hc => hle hc)
          exact h ▸ strLe_trans h1 hmk

/-- `maxKey` only depends on the multiset of keys. -/
theorem maxKey_perm {l₁ l₂ : List String} (h : l₁.Perm l₂) :
    maxKey l₁ = maxKey l₂ := by
  cases h1 : maxKey l₁ with
  | none =>
    have hnil : l₁ = [] := maxKey_eq_none_iff.mp h1
    subst hnil
    rw [← h.nil_eq]
    simp [maxKey]
  | some m =>
    cases h2 : maxKey l₂ with
    | none =>
      have hnil : l₂ = [] := maxKey_eq_none_iff.mp h2
      subst hnil
      have : l₁ = [] := h.eq_nil
      subst this
      simp [maxKey] at h1
    | some m' =>
      have hm₁ : m ∈ l₂ := h.mem_iff.mp (maxKey_mem h1)
      have hm₂ : m' ∈ l₁ := h.mem_iff.mpr (maxKey_mem h2)
      have hle : strLe m m' = true := maxKey_ge h2 m hm₁
      have hge : strLe m' m = true := maxKey_ge h1 m' hm₂
      rw [strLe_antisymm hle hge]

/-- The last element of a `strLe`-sorted list is its greatest element. -/
theorem getLast?_sorted_eq_maxKey : ∀ {l : List String},
    l.Pairwise (fun a b => strLe a b = true) → l.getLast? = maxKey l
  | [], _ => rfl
  | [a], _ => rfl
  | a :: b :: t, hp => by
    have ht : List.Pairwise (fun a b => strLe a b = true) (b :: t) := hp.tail
    have ih := getLast?_sorted_eq_maxKey ht
    have ha : ∀ x ∈ b :: t, strLe a x = true :=
      fun x hx => (List.pairwise_cons.mp hp).1 x hx
    rw [List.getLast?_cons_cons, ih]
    cases hm : maxKey (b :: t) with
    | none => exact absurd (maxKey_eq_none_iff.mp hm) (by simp)
    | some m =>
      have ham : strLe a m = true := ha m (maxKey_mem hm)
      have hunf : maxKey (a :: b :: t) =
          match maxKey (b :: t) with
          | none => some a
          | some m' => some (if strLe a m' then m' else a) := rfl
      rw [hunf, hm]
      simp [ham]

/-- The code's step 3 (last of the sorted filtered keys) computes the
greatest non-`default` key strictly below the target month. -/
theorem pastKeys_getLast?_eq (h : List (String × ℚ)) (M : String) :
    (((h.map Prod.fst).mergeSort strLe).filter
        (fun k => strLt k M && (k != "default"))).getLast? =
    maxKey ((h.map Prod.fst).filter
        (fun k => (k != "default") && strLt k M)) := by
  have htrans : ∀ a b c : String, strLe a b → strLe b c → strLe a c :=
    fun _ _ _ hab hbc => strLe_trans hab hbc
  have htotal : ∀ a b : String, strLe a b || strLe b a := by
    intro a b
    rcases strLe_total a b with hab | hab <;> simp [hab]
  have hsorted : ((h.map Prod.fst).mergeSort strLe).Pairwise
      (fun a b => strLe a b = true) :=
    List.sorted_mergeSort htrans htotal (h.map Prod.fst)
  rw [getLast?_sorted_eq_maxKey (hsorted.filter _)]
  have hperm : (((h.map Prod.fst).mergeSort strLe).filter
      (fun k => strLt k M && (k != "default"))).Perm
      ((h.map Prod.fst).filter (fun k => strLt k M && (k != "default"))) :=
    (List.mergeSort_perm (h.map Prod.fst) _).filter _
  rw [maxKey_perm hperm]
  congr 1
  exact List.filter_congr (fun x _ => Bool.and_comm _ _)

/-- The code's income resolution agrees with the spec's description of it
on every history and month. -/
theorem getIncomeForMonth_eq_spec (h : List (String × ℚ)) (M : String) :
    getIncomeForMonth h M = resolveIncomeSpec h M := by
  cases hv : lookupVal h M with
  | some v => simp only [getIncomeForMonth, resolveIncomeSpec, hv]
  | none =>
    simp only [getIncomeForMonth, resolveIncomeSpec, hv]
    by_cases hd : (lookupVal h "default").isSome <;> by_cases hl : h.length = 1
    · rw [if_pos ⟨hd, hl⟩, if_pos ⟨hl, hd⟩]
    · rw [if_neg (fun hc => hl hc.2), if_neg (fun hc => hl hc.1),
        pastKeys_getLast?_eq]
    · rw [if_neg (fun hc => hd hc.1), if_neg (fun hc => hd hc.2),
        pastKeys_getLast?_eq]
    · rw [if_neg (fun hc => hd hc.1), if_neg (fun hc => hd hc.2),
        pastKeys_getLast?_eq]

/-- C1: income resolution returns the exact entry if present; else the lone
legacy `default` entry; else the value under the greatest non-`default` key
strictly below the target month (lexicographic comparison); else the
`default` value, else 0 — with the three concrete examples on
`{"2024-01": 10, "2024-03": 20}`. -/
theorem C1_income_resolution (h : List (String × ℚ)) (M : String) :
    getIncomeForMonth h M = resolveIncomeSpec h M ∧
    getIncomeForMonth [("2024-01", 10), ("2024-03", 20)] "2024-05" = 20 ∧
    getIncomeForMonth [("2024-01", 10), ("2024-03", 20)] "2024-02" = 10 ∧
    getIncomeForMonth [("2024-01", 10), ("2024-03", 20)] "2023-01" = 0 := by
  refine ⟨getIncomeForMonth_eq_spec h M, ?_, ?_, ?_⟩ <;>
    rw [getIncomeForMonth_eq_spec] <;> decide

/-! ## Category targets (Dashboard.tsx) -/

/-- Dashboard.tsx: `const target = income * cat.percentage`. -/
def targetAmount (income : ℚ) (c : CategoryType) : ℚ :=
  income * percentage c

/-- C6: for every income ≥ 0 the four per-category targets
(income × 0.40 / 0.30 / 0.20 / 0.10) sum exactly to the income;
equivalently the four configured percentages sum to 1. -/
theorem C6_targets_sum_to_income (income : ℚ) (_hinc : 0 ≤ income) :
    targetAmount income .NEEDS + targetAmount income .WANTS +
      targetAmount income .SAVINGS + targetAmount income .GIVING = income ∧
    percentage .NEEDS + percentage .WANTS +
      percentage .SAVINGS + percentage .GIVING = 1 := by
  constructor
  · simp only [targetAmount, percentage]
    ring
  · norm_num [percentage]

theorem C6_targets_sum_to_income_witness :
    (0 : ℚ) ≤ 30000 ∧
    (targetAmount 30000 .NEEDS + targetAmount 30000 .WANTS +
      targetAmount 30000 .SAVINGS + targetAmount 30000 .GIVING = 30000 ∧
    percentage .NEEDS + percentage .WANTS +
      percentage .SAVINGS + percentage .GIVING = 1) :=
  ⟨by norm_num, C6_targets_sum_to_income 30000 (by norm_num)⟩

/-! ## CSV payload truncation (geminiService.ts `processBankStatement`,
text/CSV branch) -/

/-- geminiService.ts line 204:
`data.length > 30000 ? data.substring(0, 30000) : data`. -/
def buildTextSample (data : String) : String :=
  if 30000 < data.length then jsSubstring data 30000 else data

/-- geminiService.ts line 205: the single text part pushed for the
CSV/text request. -/
def csvPartText (data : String) : String :=
  "Zde jsou data z CSV/Textu:\n" ++ buildTextSample data ++
    "\n\nAnalyzuj řádky. Úroky jsou příjem. Vlastní převody ignoruj."

/-- C10: a text/CSV payload longer than 30000 characters is truncated to
its first 30000 characters in the request part; a payload of at most
30000 characters is included in full. -/
theorem C10_payload_truncation (data : String) :
    (30000 < data.length →
      csvPartText data = "Zde jsou data z CSV/Textu:\n" ++
        String.mk (data.toList.take 30000) ++
        "\n\nAnalyzuj řádky. Úroky jsou příjem. Vlastní převody ignoruj." ∧
      (buildTextSample data).length = 30000) ∧
    (data.length ≤ 30000 →
      csvPartText data = "Zde jsou data z CSV/Textu:\n" ++ data ++
        "\n\nAnalyzuj řádky. Úroky jsou příjem. Vlastní převody ignoruj.") := by
  constructor
  · intro hlong
    have hb : buildTextSample data = String.mk (data.toList.take 30000) := by
      unfold buildTextSample jsSubstring
      rw [if_pos hlong]
    refine ⟨by rw [csvPartText, hb], ?_⟩
    rw [hb]
    show (data.toList.take 30000).length = 30000
    rw [List.length_take]
    have : data.toList.length = data.length := by
      rfl
    omega
  · intro hshort
    have hb : buildTextSample data = data := by
      unfold buildTextSample
      rw [if_neg (by omega)]
    rw [csvPartText, hb]

theorem C10_payload_truncation_witness :
    (30000 < (String.mk (List.replicate 30001 'a')).length ∧
      (buildTextSample (String.mk (List.replicate 30001 'a'))).length = 30000) ∧
    ("abc" : String).length ≤ 30000 ∧
    csvPartText "abc" = "Zde jsou data z CSV/Textu:\nabc\n\nAnalyzuj řádky. Úroky jsou příjem. Vlastní převody ignoruj." := by
  have hlen : (String.mk (List.replicate 30001 'a')).length = 30001 := by
    show (List.replicate 30001 'a').length = 30001
    rw [List.length_replicate]
  have hlong : 30000 < (String.mk (List.replicate 30001 'a')).length := by omega
  refine ⟨⟨hlong, ((C10_payload_truncation _).1 hlong).2⟩, by decide, ?_⟩
  exact (C10_payload_truncation "abc").2 (by decide)

/-! ## Statement-import post-processing (geminiService.ts
`processBankStatement`, lines 239-259) -/

/-- The `type` tag of a classified record (response schema enum). -/
inductive TxType where
  | INCOME
  | EXPENSE
  | IGNORE
deriving DecidableEq

/-- One classified record as returned by the external parser
(response schema of `processBankStatement`). -/
structure BankRecord where
  description : String
  amount : ℚ
  date : String
  type : TxType
  category : Option CategoryType
deriving DecidableEq

/-- `Omit<Expense, 'id'>`: an expense before an id is assigned. -/
structure ExpenseDraft where
  description : String
  amount : ℚ
  category : CategoryType
  date : String
  isRecurring : Bool
deriving DecidableEq

/-- geminiService.ts `ImportResult`. -/
structure ImportResult where
  expenses : List ExpenseDraft
  detectedIncome : ℚ
deriving DecidableEq

/-- The expense pushed for a non-INCOME, non-IGNORE record:
`category: item.category || NEEDS` (default when null), `isRecurring: false`. -/
def draftOf (r : BankRecord) : ExpenseDraft :=
  ⟨r.description, r.amount, r.category.getD .NEEDS, r.date, false⟩

/-- One iteration of the `parsed.forEach` loop in `processBankStatement`:
IGNORE is skipped, INCOME is summed, anything else is pushed as an expense. -/
def importStep (acc : ImportResult) (item : BankRecord) : ImportResult :=
  match item.type with
  | .IGNORE => acc
  | .INCOME => { acc with detectedIncome := acc.detectedIncome + item.amount }
  | .EXPENSE => { acc with expenses := acc.expenses ++ [draftOf item] }

/-- The post-processing of a parsed record list in `processBankStatement`. -/
def postProcess (records : List BankRecord) : ImportResult :=
  records.foldl importStep ⟨[], 0⟩

theorem postProcess_go : ∀ (records : List BankRecord) (acc : ImportResult),
    records.foldl importStep acc =
      ⟨acc.expenses ++ (records.filter (fun r => r.type == .EXPENSE)).map draftOf,
        acc.detectedIncome +
          ((records.filter (fun r => r.type == .INCOME)).map
            (fun r => r.amount)).sum⟩
  | [], acc => by simp
  | r :: rs, acc => by
    rw [List.foldl_cons, postProcess_go rs (importStep acc r)]
    cases ht : r.type <;>
      simp [importStep, ht, List.filter_cons, add_assoc, add_left_comm]

/-- C3: import post-processing sums the INCOME amounts into
`detectedIncome`, passes the EXPENSE records through in order (defaulting
an absent category to NEEDS, `isRecurring := false`), and drops IGNORE
records from both outputs — with the concrete three-record example. -/
theorem C3_import_postprocessing (records : List BankRecord) :
    (postProcess records).detectedIncome =
      ((records.filter (fun r => r.type == .INCOME)).map
        (fun r => r.amount)).sum ∧
    (postProcess records).expenses =
      (records.filter (fun r => r.type == .EXPENSE)).map draftOf ∧
    postProcess [⟨"Mzda", 30000, "2024-01-10", .INCOME, none⟩,
        ⟨"Nákup", 500, "2024-01-12", .EXPENSE, some .NEEDS⟩,
        ⟨"Převod", 999, "2024-01-15", .IGNORE, none⟩] =
      ⟨[⟨"Nákup", 500, .NEEDS, "2024-01-12", false⟩], 30000⟩ := by
  refine ⟨?_, ?_, ?_⟩ <;>
    rw [postProcess, postProcess_go] <;> simp [draftOf]

/-! ## Monthly aggregation (Dashboard.tsx) -/

/-- Dashboard.tsx `categoryTotals` / AIAdvisor summary reduce:
`acc[curr.category] = (acc[curr.category] || 0) + curr.amount`. -/
def categoryTotals (l : List Expense) : CategoryType → ℚ :=
  l.foldl (fun acc e c => if c = e.category then acc c + e.amount else acc c)
    (fun _ => 0)

/-- Dashboard.tsx line 351:
`target > 0 ? Math.min((spent / target) * 100, 100) : 0`. -/
def percentageUsed (income : ℚ) (l : List Expense) (c : CategoryType) : ℚ :=
  if 0 < targetAmount income c then
    min ((categoryTotals l c / targetAmount income c) * 100) 100
  else 0

theorem categoryTotals_go : ∀ (l : List Expense) (f : CategoryType → ℚ)
    (c : CategoryType),
    l.foldl (fun acc e c => if c = e.category then acc c + e.amount else acc c) f c
      = f c + ((l.filter (fun e => e.category == c)).map (fun e => e.amount)).sum
  | [], f, c => by simp
  | e :: es, f, c => by
    rw [List.foldl_cons, categoryTotals_go es]
    by_cases hc : c = e.category
    · simp [hc, List.filter_cons, add_assoc]
    · have : ¬ (e.category == c) = true := by
        simp only [beq_iff_eq]
        exact fun hcc => hc hcc.symm
      simp [hc, List.filter_cons, this]

/-- A category's spent total is the sum of its expense amounts. -/
theorem categoryTotals_eq (l : List Expense) (c : CategoryType) :
    categoryTotals l c =
      ((l.filter (fun e => e.category == c)).map (fun e => e.amount)).sum := by
  rw [categoryTotals, categoryTotals_go]
  simp

/-- C9: in a month whose resolved income is 0 every category target is 0,
the target-usage ratio is computed as 0 by the `target > 0` guard (no
division is reached), and a category with no transactions reports 0 spent. -/
theorem C9_zero_income_guard (hist : List (String × ℚ)) (M : String)
    (l : List Expense) (c : CategoryType)
    (hz : getIncomeForMonth hist M = 0) :
    targetAmount (getIncomeForMonth hist M) c = 0 ∧
    percentageUsed (getIncomeForMonth hist M) l c = 0 ∧
    ((∀ e ∈ l, e.category ≠ c) → categoryTotals l c = 0) := by
  refine ⟨?_, ?_, ?_⟩
  · rw [hz, targetAmount, zero_mul]
  · rw [percentageUsed, hz, targetAmount, zero_mul, if_neg (lt_irrefl 0)]
  · intro hnone
    rw [categoryTotals_eq]
    have : l.filter (fun e => e.category == c) = [] := by
      rw [List.filter_eq_nil_iff]
      intro e he
      simp only [beq_iff_eq]
      exact hnone e he
    rw [this]
    simp

theorem C9_zero_income_guard_witness :
    getIncomeForMonth [] "2024-01" = 0 ∧
    (targetAmount (getIncomeForMonth [] "2024-01") CategoryType.NEEDS = 0 ∧
     percentageUsed (getIncomeForMonth [] "2024-01")
       [⟨"e1", "Kino", 300, CategoryType.WANTS, "2024-01-05", false⟩]
       CategoryType.NEEDS = 0 ∧
     categoryTotals [⟨"e1", "Kino", 300, CategoryType.WANTS, "2024-01-05", false⟩]
       CategoryType.NEEDS = 0) := by
  have hz : getIncomeForMonth [] "2024-01" = 0 := by
    rw [getIncomeForMonth_eq_spec]
    decide
  obtain ⟨h1, h2, h3⟩ := C9_zero_income_guard []
    "2024-01" [⟨"e1", "Kino", 300, CategoryType.WANTS, "2024-01-05", false⟩]
    CategoryType.NEEDS hz
  exact ⟨hz, h1, h2, h3 (by decide)⟩

/-! ## Grouped sums

Dashboard.tsx uses the same reduce shape twice —
`acc[k] = (acc[k] || 0) + curr.amount` over a JS object — once keyed by
`date.substring(0, 7)` (`expensesByMonth`) and once keyed by the trimmed
description (`getCategoryDetailData`).  `groupSums` is that shared shape. -/

/-- One reduce step: add `e.amount` to the entry under `key e`, inserting
the key at the end when absent (JS object key insertion order). -/
def bumpBy (key : Expense → String) (acc : List (String × ℚ)) (e : Expense) :
    List (String × ℚ) :=
  if acc.any (fun p => p.1 == key e) then
    acc.map (fun p => if p.1 == key e then (p.1, p.2 + e.amount) else p)
  else acc ++ [(key e, e.amount)]

/-- The whole reduce, from the empty object. -/
def groupSums (key : Expense → String) (l : List Expense) : List (String × ℚ) :=
  l.foldl (bumpBy key) []

/-- The sum of the amounts of the expenses with key `d`. -/
def sumBy (key : Expense → String) (l : List Expense) (d : String) : ℚ :=
  ((l.filter (fun e => key e == d)).map (fun e => e.amount)).sum

theorem lookupVal_nil (d : String) : lookupVal [] d = none := rfl

theorem lookupVal_cons (p : String × ℚ) (ps : List (String × ℚ)) (d : String) :
    lookupVal (p :: ps) d = if p.1 == d then some p.2 else lookupVal ps d := by
  by_cases h : (p.1 == d) = true <;> simp [lookupVal, List.find?_cons, h]

theorem keys_mem_iff_any (m : List (String × ℚ)) (k : String) :
    k ∈ m.map Prod.fst ↔ m.any (fun p => p.1 == k) = true := by
  simp only [List.mem_map, List.any_eq_true, beq_iff_eq]

theorem lookupVal_isSome_iff (m : List (String × ℚ)) (d : String) :
    (lookupVal m d).isSome = true ↔ m.any (fun p => p.1 == d) = true := by
  induction m with
  | nil => simp [lookupVal]
  | cons p ps ih =>
    rw [lookupVal_cons]
    by_cases h : (p.1 == d) = true <;> simp [h, ih]

theorem lookupVal_update (acc : List (String × ℚ)) (k : String) (a : ℚ)
    (d : String) :
    lookupVal (acc.map (fun p => if p.1 == k then (p.1, p.2 + a) else p)) d =
      if k == d then (lookupVal acc d).map (fun v => v + a)
      else lookupVal acc d := by
  induction acc with
  | nil => by_cases h : (k == d) = true <;> simp [lookupVal, h]
  | cons p ps ih =>
    rw [List.map_cons, lookupVal_cons, lookupVal_cons]
    have hfst : (if p.1 == k then (p.1, p.2 + a) else p).1 = p.1 := by
      by_cases h : (p.1 == k) = true <;> simp [h]
    rw [hfst]
    by_cases hpd : (p.1 == d) = true
    · have hpd' : p.1 = d := by simpa using hpd
      by_cases hpk : (p.1 == k) = true
      · have hpk' : p.1 = k := by simpa using hpk
        have hkd : (k == d) = true := by simp [← hpk', hpd']
        simp [hpd, hpk, hkd]
      · have hkd : ¬ (k == d) = true := by
          simp only [beq_iff_eq]
          intro hkd'
          exact hpk (by simp [hpd', hkd'])
        simp [hpd, hpk, hkd]
    · simp only [if_neg hpd]
      exact ih

theorem lookupVal_append_single (acc : List (String × ℚ)) (k : String) (a : ℚ)
    (d : String) :
    lookupVal (acc ++ [(k, a)]) d =
      match lookupVal acc d with
      | some v => some v
      | none => if k == d then some a else none := by
  induction acc with
  | nil => simp [lookupVal_cons, lookupVal_nil]
  | cons p ps ih =>
    rw [List.cons_append, lookupVal_cons, lookupVal_cons]
    by_cases hpd : (p.1 == d) = true <;> simp [hpd, ih]

theorem lookupVal_bumpBy (key : Expense → String) (acc : List (String × ℚ))
    (e : Expense) (d : String) :
    lookupVal (bumpBy key acc e) d =
      if key e == d then
        match lookupVal acc d with
        | some v => some (v + e.amount)
        | none => some e.amount
      else lookupVal acc d := by
  unfold bumpBy
  by_cases hany : acc.any (fun p => p.1 == key e) = true
  · rw [if_pos hany, lookupVal_update]
    by_cases hkd : (key e == d) = true
    · rw [if_pos hkd, if_pos hkd]
      have hkd' : key e = d := by simpa using hkd
      have hd : (lookupVal acc d).isSome = true := by
        rw [lookupVal_isSome_iff, ← hkd']
        exact hany
      cases hv : lookupVal acc d with
      | none => rw [hv] at hd; simp at hd
      | some v => simp
    · rw [if_neg hkd, if_neg hkd]
  · rw [if_neg hany, lookupVal_append_single]
    by_cases hkd : (key e == d) = true
    · rw [if_pos hkd]
      have hkd' : key e = d := by simpa using hkd
      have hd : lookupVal acc d = none := by
        cases hv : lookupVal acc d with
        | none => rfl
        | some v =>
          have : (lookupVal acc d).isSome = true := by simp [hv]
          rw [lookupVal_isSome_iff, ← hkd'] at this
          exact absurd this hany
      rw [hd]
      simp [hkd]
    · rw [if_neg hkd]
      cases hv : lookupVal acc d <;> simp [hkd]

theorem lookupVal_foldl_bumpBy (key : Expense → String) :
    ∀ (l : List Expense) (acc : List (String × ℚ)) (d : String),
    lookupVal (l.foldl (bumpBy key) acc) d =
      match lookupVal acc d with
      | some v => some (v + sumBy key l d)
      | none =>
        if l.any (fun e => key e == d) then some (sumBy key l d) else none
  | [], acc, d => by
    cases h : lookupVal acc d <;> simp [sumBy, h]
  | e :: es, acc, d => by
    rw [List.foldl_cons, lookupVal_foldl_bumpBy key es (bumpBy key acc e) d,
      lookupVal_bumpBy]
    by_cases hkd : (key e == d) = true
    · have hsum : sumBy key (e :: es) d = e.amount + sumBy key es d := by
        simp [sumBy, List.filter_cons, hkd]
      cases hv : lookupVal acc d with
      | some v => simp [hkd, hsum, add_assoc]
      | none => simp [hkd, hsum]
    · have hsum : sumBy key (e :: es) d = sumBy key es d := by
        simp [sumBy, List.filter_cons, hkd]
      cases hv : lookupVal acc d <;> simp [hkd, hsum]

/-- The value stored under `d` after the whole reduce. -/
theorem lookupVal_groupSums (key : Expense → String) (l : List Expense)
    (d : String) :
    lookupVal (groupSums key l) d =
      if l.any (fun e => key e == d) then some (sumBy key l d) else none := by
  rw [groupSums, lookupVal_foldl_bumpBy key l [] d]
  rfl

theorem bumpBy_keys (key : Expense → String) (acc : List (String × ℚ))
    (e : Expense) :
    (bumpBy key acc e).map Prod.fst =
      if acc.any (fun p => p.1 == key e) then acc.map Prod.fst
      else acc.map Prod.fst ++ [key e] := by
  unfold bumpBy
  by_cases h : acc.any (fun p => p.1 == key e) = true
  · rw [if_pos h, if_pos h, List.map_map]
    apply List.map_congr_left
    intro p _
    by_cases hpk : (p.1 == key e) = true
    · have hpk' : p.1 = key e := by simpa using hpk
      simp [hpk']
    · have hpk' : p.1 ≠ key e := by simpa using hpk
      simp [hpk']
  · rw [if_neg h, if_neg h, List.map_append]
    rfl

theorem foldl_bumpBy_keys_nodup (key : Expense → String) :
    ∀ (l : List Expense) (acc : List (String × ℚ)),
    (acc.map Prod.fst).Nodup → ((l.foldl (bumpBy key) acc).map Prod.fst).Nodup
  | [], acc, h => h
  | e :: es, acc, h => by
    rw [List.foldl_cons]
    apply foldl_bumpBy_keys_nodup key es
    rw [bumpBy_keys]
    by_cases hany : acc.any (fun p => p.1 == key e) = true
    · rw [if_pos hany]
      exact h
    · rw [if_neg hany]
      have hnot : key e ∉ acc.map Prod.fst := by
        rw [keys_mem_iff_any]
        exact hany
      simp [List.nodup_append, h, hnot]

theorem groupSums_keys_nodup (key : Expense → String) (l : List Expense) :
    ((groupSums key l).map Prod.fst).Nodup :=
  foldl_bumpBy_keys_nodup key l [] (by simp)

/-- In an association list with distinct keys, membership of an entry is
exactly a successful lookup. -/
theorem mem_iff_lookupVal : ∀ {m : List (String × ℚ)},
    (m.map Prod.fst).Nodup → ∀ (d : String) (v : ℚ),
    ((d, v) ∈ m ↔ lookupVal m d = some v)
  | [], _, d, v => by simp [lookupVal_nil]
  | p :: ps, hnd, d, v => by
    rw [List.map_cons, List.nodup_cons] at hnd
    obtain ⟨hp1, hps⟩ := hnd
    rw [lookupVal_cons, List.mem_cons]
    by_cases hpd : (p.1 == d) = true
    · have hpd' : p.1 = d := by simpa using hpd
      rw [if_pos hpd]
      constructor
      · rintro (rfl | hmem)
        · rfl
        · exfalso
          apply hp1
          rw [hpd']
          exact List.mem_map.mpr ⟨(d, v), hmem, rfl⟩
      · intro hv
        left
        have : p.2 = v := by simpa using hv
        rw [← hpd', ← this]
    · have hpd' : p.1 ≠ d := by simpa using hpd
      rw [if_neg hpd]
      rw [mem_iff_lookupVal hps d v]
      constructor
      · rintro (heq | hmem)
        · exact absurd (congrArg Prod.fst heq).symm hpd'
        · exact hmem
      · exact Or.inr

/-- A key appears in the reduce result iff some expense has that key. -/
theorem groupSums_keys_mem (key : Expense → String) (l : List Expense)
    (d : String) :
    d ∈ (groupSums key l).map Prod.fst ↔
      l.any (fun e => key e == d) = true := by
  rw [keys_mem_iff_any, ← lookupVal_isSome_iff, lookupVal_groupSums]
  by_cases h : l.any (fun e => key e == d) = true <;> simp [h]

/-- Entry characterization of the reduce result. -/
theorem groupSums_mem_iff (key : Expense → String) (l : List Expense)
    (d : String) (v : ℚ) :
    (d, v) ∈ groupSums key l ↔
      l.any (fun e => key e == d) = true ∧ v = sumBy key l d := by
  rw [mem_iff_lookupVal (groupSums_keys_nodup key l), lookupVal_groupSums]
  by_cases h : l.any (fun e => key e == d) = true
  · simp [h, eq_comm]
  · simp [h]

/-! ## Cumulative savings series (Dashboard.tsx lines 146-176) -/

/-- `curr.date.substring(0, 7)`: the month key of an expense date. -/
def monthKeyOfDate (d : String) : String := jsSubstring d 7

/-- Dashboard.tsx `expensesByMonth`: total expense amount per month key. -/
def expensesByMonth (l : List Expense) : List (String × ℚ) :=
  groupSums (fun e => monthKeyOfDate e.date) l

/-- Dashboard.tsx `allMonths`: the month keys of the ledger with the
currently viewed month added (JS `Set` keeps insertion order, `add` is a
no-op on a present member). -/
def allMonths (l : List Expense) (V : String) : List String :=
  if V ∈ (expensesByMonth l).map Prod.fst then (expensesByMonth l).map Prod.fst
  else (expensesByMonth l).map Prod.fst ++ [V]

/-- Dashboard.tsx `sortedMonths`: ascending by JS string comparison. -/
def sortedMonths (l : List Expense) (V : String) : List String :=
  (allMonths l V).mergeSort strLe

/-- Dashboard.tsx `trendData` savings of one month:
`getIncomeForMonth(monthKey) - (expensesByMonth[monthKey] || 0)`. -/
def monthNet (hist : List (String × ℚ)) (l : List Expense) (mk : String) : ℚ :=
  getIncomeForMonth hist mk - (lookupVal (expensesByMonth l) mk).getD 0

/-- The running-sum pass of `accumulationData`
(`cumulative += d.savings`). -/
def accumulate (c : ℚ) : List (String × ℚ) → List (String × ℚ)
  | [] => []
  | x :: rest => (x.1, c + x.2) :: accumulate (c + x.2) rest

/-- Dashboard.tsx `accumulationData`, keeping the month key and the
cumulative value (seeded by the configured initial savings). -/
def accumulationData (hist : List (String × ℚ)) (l : List Expense) (s : ℚ)
    (V : String) : List (String × ℚ) :=
  accumulate s ((sortedMonths l V).map (fun mk => (mk, monthNet hist l mk)))

theorem accumulate_map_fst : ∀ (c : ℚ) (xs : List (String × ℚ)),
    (accumulate c xs).map Prod.fst = xs.map Prod.fst
  | _, [] => rfl
  | c, x :: rest => by
    simp [accumulate, accumulate_map_fst (c + x.2) rest]

theorem accumulate_getElem? : ∀ (c : ℚ) (xs : List (String × ℚ)) (k : Nat),
    (accumulate c xs)[k]? =
      (xs[k]?).map (fun p => (p.1, c + ((xs.take (k + 1)).map Prod.snd).sum))
  | _, [], k => by simp [accumulate]
  | c, x :: rest, 0 => by simp [accumulate]
  | c, x :: rest, k + 1 => by
    simp only [accumulate, List.getElem?_cons_succ, List.take_succ_cons,
      List.map_cons, List.sum_cons]
    rw [accumulate_getElem? (c + x.2) rest k]
    cases rest[k]? <;> simp [add_assoc]

theorem strLe_trans_bool : ∀ (a b c : String), strLe a b → strLe b c → strLe a c :=
  fun _ _ _ hab hbc => strLe_trans hab hbc

theorem strLe_total_bool : ∀ (a b : String), strLe a b || strLe b a := by
  intro a b
  rcases strLe_total a b with hab | hab <;> simp [hab]

theorem sortedMonths_mem (l : List Expense) (V : String) (m : String) :
    m ∈ sortedMonths l V ↔ (∃ e ∈ l, monthKeyOfDate e.date = m) ∨ m = V := by
  rw [sortedMonths, List.mem_mergeSort]
  have hkeys : ∀ m', m' ∈ (expensesByMonth l).map Prod.fst ↔
      ∃ e ∈ l, monthKeyOfDate e.date = m' := by
    intro m'
    rw [expensesByMonth, groupSums_keys_mem]
    simp [List.any_eq_true]
  unfold allMonths
  by_cases hV : V ∈ (expensesByMonth l).map Prod.fst
  · rw [if_pos hV]
    rw [hkeys]
    constructor
    · exact Or.inl
    · rintro (h | rfl)
      · exact h
      · exact (hkeys m).mp hV
  · rw [if_neg hV]
    rw [List.mem_append, hkeys]
    simp

theorem sortedMonths_sorted (l : List Expense) (V : String) :
    (sortedMonths l V).Pairwise (fun a b => strLe a b = true) :=
  List.sorted_mergeSort strLe_trans_bool strLe_total_bool (allMonths l V)

theorem sortedMonths_nodup (l : List Expense) (V : String) :
    (sortedMonths l V).Nodup := by
  rw [sortedMonths, (List.mergeSort_perm (allMonths l V) strLe).nodup_iff]
  have hnd : ((expensesByMonth l).map Prod.fst).Nodup := groupSums_keys_nodup _ l
  unfold allMonths
  by_cases hV : V ∈ (expensesByMonth l).map Prod.fst
  · rw [if_pos hV]
    exact hnd
  · rw [if_neg hV]
    simp [List.nodup_append, hnd, hV]

theorem monthNet_eq (hist : List (String × ℚ)) (l : List Expense)
    (m : String) :
    monthNet hist l m = getIncomeForMonth hist m -
      ((l.filter (fun e => monthKeyOfDate e.date == m)).map
        (fun e => e.amount)).sum := by
  rw [monthNet, expensesByMonth, lookupVal_groupSums]
  by_cases hany : l.any (fun e => monthKeyOfDate e.date == m) = true
  · rw [if_pos hany]
    rfl
  · rw [if_neg hany]
    have hnil : l.filter (fun e => monthKeyOfDate e.date == m) = [] := by
      rw [List.filter_eq_nil_iff]
      intro e he hc
      exact hany (List.any_eq_true.mpr ⟨e, he, hc⟩)
    rw [hnil]
    simp

/-- C2: the cumulative savings series is indexed by exactly the month keys
of the ledger together with the viewed month, in ascending order without
duplicates, and its k-th value is the initial savings plus the sum of the
first k+1 monthly nets (resolved income minus the month's expense total). -/
theorem C2_cumulative_savings (hist : List (String × ℚ)) (l : List Expense)
    (s : ℚ) (V : String) :
    (accumulationData hist l s V).map Prod.fst = sortedMonths l V ∧
    (∀ m, m ∈ sortedMonths l V ↔
      (∃ e ∈ l, monthKeyOfDate e.date = m) ∨ m = V) ∧
    (sortedMonths l V).Pairwise (fun a b => strLe a b = true) ∧
    (sortedMonths l V).Nodup ∧
    (∀ m, monthNet hist l m = getIncomeForMonth hist m -
      ((l.filter (fun e => monthKeyOfDate e.date == m)).map
        (fun e => e.amount)).sum) ∧
    (∀ k : Nat, (accumulationData hist l s V)[k]? =
      ((sortedMonths l V)[k]?).map (fun mk =>
        (mk, s + (((sortedMonths l V).take (k + 1)).map
          (monthNet hist l)).sum))) := by
  refine ⟨?_, sortedMonths_mem l V, sortedMonths_sorted l V,
    sortedMonths_nodup l V, monthNet_eq hist l, ?_⟩
  · rw [accumulationData, accumulate_map_fst, List.map_map]
    have hid : (Prod.fst ∘ fun mk => (mk, monthNet hist l mk)) = id := rfl
    rw [hid, List.map_id]
  · intro k
    rw [accumulationData, accumulate_getElem?, List.getElem?_map,
      ← List.map_take, List.map_map]
    have hcomp : (Prod.snd ∘ fun mk => (mk, monthNet hist l mk)) =
        monthNet hist l := rfl
    rw [hcomp]
    cases (sortedMonths l V)[k]? <;> simp

/-! ## Category drill-down (Dashboard.tsx `getCategoryDetailData`) -/

/-- The grouping reduce of `getCategoryDetailData`: the category's
expenses of the month, keyed by trimmed description. -/
def groupedByDesc (catType : CategoryType) (l : List Expense) :
    List (String × ℚ) :=
  groupSums (fun e => jsTrim e.description)
    (l.filter (fun e => e.category == catType))

/-- Dashboard.tsx `getCategoryDetailData`: group, then
`.sort((a, b) => b.value - a.value)` — a stable descending sort. -/
def getCategoryDetailData (catType : CategoryType) (l : List Expense) :
    List (String × ℚ) :=
  (groupedByDesc catType l).mergeSort (fun a b => decide (b.2 ≤ a.2))

theorem descVal_trans : ∀ (a b c : String × ℚ),
    decide (b.2 ≤ a.2) → decide (c.2 ≤ b.2) → decide (c.2 ≤ a.2) := by
  intro a b c hab hbc
  simp only [decide_eq_true_eq] at *
  exact le_trans hbc hab

theorem descVal_total : ∀ (a b : String × ℚ),
    decide (b.2 ≤ a.2) || decide (a.2 ≤ b.2) := by
  intro a b
  rcases le_total b.2 a.2 with h | h <;> simp [h]

/-- Stability of the drill-down sort: groups with the same summed amount
keep their grouping order. -/
theorem getCategoryDetailData_stable (catType : CategoryType)
    (l : List Expense) (v : ℚ) :
    (getCategoryDetailData catType l).filter (fun p => p.2 == v) =
      (groupedByDesc catType l).filter (fun p => p.2 == v) := by
  set g := groupedByDesc catType l with hg
  set le := fun a b : String × ℚ => decide (b.2 ≤ a.2) with hle
  have hsub : List.Sublist (g.filter (fun p => p.2 == v)) g :=
    List.filter_sublist g
  have hpc : (g.filter (fun p => p.2 == v)).Pairwise
      (fun a b => le a b = true) := by
    have hall : ∀ a ∈ g.filter (fun p => p.2 == v),
        ∀ b ∈ g.filter (fun p => p.2 == v), le a b = true := by
      intro a ha b hb
      have ha2 : a.2 = v := by
        have := (List.mem_filter.mp ha).2
        simpa using this
      have hb2 : b.2 = v := by
        have := (List.mem_filter.mp hb).2
        simpa using this
      simp [hle, ha2, hb2]
    exact List.pairwise_of_forall_mem_list hall
  have hstb : List.Sublist (g.filter (fun p => p.2 == v)) (g.mergeSort le) :=
    List.sublist_mergeSort descVal_trans descVal_total hpc hsub
  have hself : (g.filter (fun p => p.2 == v)).filter (fun p => p.2 == v) =
      g.filter (fun p => p.2 == v) := by
    rw [List.filter_eq_self]
    intro a ha
    exact (List.mem_filter.mp ha).2
  have hsub2 : List.Sublist (g.filter (fun p => p.2 == v))
      ((g.mergeSort le).filter (fun p => p.2 == v)) := by
    rw [← hself]
    exact hstb.filter _
  have hperm : ((g.mergeSort le).filter (fun p => p.2 == v)).Perm
      (g.filter (fun p => p.2 == v)) :=
    (List.mergeSort_perm g le).filter _
  have hlen : (g.filter (fun p => p.2 == v)).length =
      ((g.mergeSort le).filter (fun p => p.2 == v)).length :=
    hperm.length_eq.symm
  exact (hsub2.eq_of_length hlen).symm

/-- C8: the drill-down groups the category's expenses by trimmed
description with each group's summed amount (no duplicate group names),
sorted descending by amount with ties keeping their grouping order —
with the Coffee 5 + 3 = 8 example. -/
theorem C8_category_drilldown (c : CategoryType) (l : List Expense) :
    (getCategoryDetailData c l).Perm (groupedByDesc c l) ∧
    ((groupedByDesc c l).map Prod.fst).Nodup ∧
    (∀ d v, (d, v) ∈ groupedByDesc c l ↔
      (∃ e ∈ l, e.category = c ∧ jsTrim e.description = d) ∧
      v = (((l.filter (fun e => e.category == c)).filter
        (fun e => jsTrim e.description == d)).map (fun e => e.amount)).sum) ∧
    (getCategoryDetailData c l).Pairwise (fun a b => b.2 ≤ a.2) ∧
    (∀ v : ℚ, (getCategoryDetailData c l).filter (fun p => p.2 == v) =
      (groupedByDesc c l).filter (fun p => p.2 == v)) ∧
    getCategoryDetailData CategoryType.WANTS
      [⟨"e1", "Coffee", 5, CategoryType.WANTS, "2024-01-02", false⟩,
       ⟨"e2", "Coffee", 3, CategoryType.WANTS, "2024-01-03", false⟩] =
      [("Coffee", 8)] := by
  refine ⟨List.mergeSort_perm _ _, groupSums_keys_nodup _ _, ?_, ?_,
    getCategoryDetailData_stable c l, ?_⟩
  · intro d v
    rw [groupedByDesc, groupSums_mem_iff]
    constructor
    · rintro ⟨hany, rfl⟩
      obtain ⟨e, he, hk⟩ := List.any_eq_true.mp hany
      have hmem := List.mem_filter.mp he
      refine ⟨⟨e, hmem.1, by simpa using hmem.2, by simpa using hk⟩, rfl⟩
    · rintro ⟨⟨e, he, hcat, hd⟩, rfl⟩
      refine ⟨List.any_eq_true.mpr ⟨e, List.mem_filter.mpr ⟨he, by simp [hcat]⟩,
        by simp [hd]⟩, rfl⟩
  · have hp := List.sorted_mergeSort descVal_trans descVal_total
      (groupedByDesc c l)
    exact hp.imp (fun hab => by simpa using hab)
  · have hfilter : (([⟨"e1", "Coffee", 5, CategoryType.WANTS, "2024-01-02", false⟩,
        ⟨"e2", "Coffee", 3, CategoryType.WANTS, "2024-01-03", false⟩] :
          List Expense).filter (fun e => e.category == CategoryType.WANTS)) =
        [⟨"e1", "Coffee", 5, CategoryType.WANTS, "2024-01-02", false⟩,
         ⟨"e2", "Coffee", 3, CategoryType.WANTS, "2024-01-03", false⟩] := by
      decide
    have hg : groupedByDesc CategoryType.WANTS
        [⟨"e1", "Coffee", 5, CategoryType.WANTS, "2024-01-02", false⟩,
         ⟨"e2", "Coffee", 3, CategoryType.WANTS, "2024-01-03", false⟩] =
        [("Coffee", 5 + 3)] := by
      rw [groupedByDesc, hfilter, groupSums, List.foldl_cons, List.foldl_cons,
        List.foldl_nil]
      have hb1 : bumpBy (fun e => jsTrim e.description) []
          ⟨"e1", "Coffee", 5, CategoryType.WANTS, "2024-01-02", false⟩ =
          [("Coffee", 5)] := by decide
      rw [hb1, bumpBy, if_pos (by decide)]
      rw [List.map_cons, List.map_nil, if_pos (by decide)]
    rw [getCategoryDetailData, hg, List.mergeSort_singleton]
    norm_num

/-! ## Recurring carry-forward (App.tsx `copyRecurringExpenses`) -/

/-- The dedup key of a recurring expense.  The code builds the template
string `description-amount`; for the app's amounts (positive decimals,
whose JS rendering contains no dash, with the amount as the segment after
the final dash) that string determines the (description, amount) pair, so
the key is modelled as the pair itself. -/
def pairKey (e : Expense) : String × ℚ := (e.description, e.amount)

/-- JS `Map.set`: overwrite in place when the key is present (keeping the
original insertion position), append when absent. -/
def mapSet (m : List ((String × ℚ) × Expense)) (k : String × ℚ)
    (v : Expense) : List ((String × ℚ) × Expense) :=
  if m.any (fun p => decide (p.1 = k)) then
    m.map (fun p => if p.1 = k then (k, v) else p)
  else m ++ [(k, v)]

/-- One iteration of the first loop of `copyRecurringExpenses`: recurring
expenses not dated in the current month go into the map. -/
def recStep (currentKey : String) (m : List ((String × ℚ) × Expense))
    (exp : Expense) : List ((String × ℚ) × Expense) :=
  if exp.isRecurring && !(jsStartsWith exp.date currentKey) then
    mapSet m (pairKey exp) exp
  else m

/-- App.tsx `distinctRecurring`: the map after the first loop. -/
def distinctRecurring (expenses : List Expense) (currentKey : String) :
    List ((String × ℚ) × Expense) :=
  expenses.foldl (recStep currentKey) []

/-- App.tsx `existingCurrentMonthDescriptions`: the keys of the entries
already dated in the current month. -/
def existingKeys (expenses : List Expense) (currentKey : String) :
    List (String × ℚ) :=
  (expenses.filter (fun e => jsStartsWith e.date currentKey)).map pairKey

/-- The map entries that pass the `!existingCurrentMonthDescriptions.has`
check and will be pushed. -/
def recurringToAdd (expenses : List Expense) (currentKey : String) :
    List ((String × ℚ) × Expense) :=
  (distinctRecurring expenses currentKey).filter
    (fun p => !((existingKeys expenses currentKey).any
      (fun k => decide (k = p.1))))

/-- The pushed entries `{ ...exp, id: uuidv4(), date: getDayKey(...) }`;
the fresh uuids are modelled by `freshId` applied to the push index. -/
def assignIds (freshId : Nat → String) (dayKey : String) :
    Nat → List ((String × ℚ) × Expense) → List Expense
  | _, [] => []
  | i, p :: rest =>
    { p.2 with id := freshId i, date := dayKey } ::
      assignIds freshId dayKey (i + 1) rest

/-- App.tsx `copyRecurringExpenses`: the ledger after the carry-forward
(`setExpenses(prev => [...prev, ...newExpenses])`; when nothing qualifies
the state setter is not called, which appending the empty list also
models). -/
def copyRecurringExpenses (expenses : List Expense)
    (currentKey dayKey : String) (freshId : Nat → String) : List Expense :=
  expenses ++ assignIds freshId dayKey 0 (recurringToAdd expenses currentKey)

theorem any_eq_mem {α : Type} [DecidableEq α] (l : List α) (x : α) :
    l.any (fun y => decide (y = x)) = true ↔ x ∈ l := by
  rw [List.any_eq_true]
  constructor
  · rintro ⟨y, hy, hxy⟩
    have hyx : y = x := by simpa using hxy
    exact hyx ▸ hy
  · intro hx
    exact ⟨x, hx, by simp⟩

theorem mapKeys_mem_iff_any (m : List ((String × ℚ) × Expense))
    (k : String × ℚ) :
    k ∈ m.map Prod.fst ↔ m.any (fun p => decide (p.1 = k)) = true := by
  simp [List.any_eq_true, List.mem_map]

theorem mapSet_keys (m : List ((String × ℚ) × Expense)) (k : String × ℚ)
    (v : Expense) :
    (mapSet m k v).map Prod.fst =
      if m.any (fun p => decide (p.1 = k)) then m.map Prod.fst
      else m.map Prod.fst ++ [k] := by
  unfold mapSet
  by_cases h : m.any (fun p => decide (p.1 = k)) = true
  · rw [if_pos h, if_pos h, List.map_map]
    apply List.map_congr_left
    intro p _
    by_cases hpk : p.1 = k <;> simp [hpk]
  · rw [if_neg h, if_neg h, List.map_append]
    rfl

theorem mapSet_mem {m : List ((String × ℚ) × Expense)} {k : String × ℚ}
    {v : Expense} {q : (String × ℚ) × Expense} (hq : q ∈ mapSet m k v) :
    q ∈ m ∨ q = (k, v) := by
  unfold mapSet at hq
  by_cases h : m.any (fun p => decide (p.1 = k)) = true
  · rw [if_pos h] at hq
    obtain ⟨p, hp, hpq⟩ := List.mem_map.mp hq
    by_cases hpk : p.1 = k
    · right
      rw [← hpq]
      simp [hpk]
    · left
      rw [← hpq]
      simpa [hpk] using hp
  · rw [if_neg h] at hq
    rcases List.mem_append.mp hq with h1 | h1
    · exact Or.inl h1
    · right
      simpa using h1

theorem mapSet_keys_nodup {m : List ((String × ℚ) × Expense)}
    (k : String × ℚ) (v : Expense) (h : (m.map Prod.fst).Nodup) :
    ((mapSet m k v).map Prod.fst).Nodup := by
  rw [mapSet_keys]
  by_cases hany : m.any (fun p => decide (p.1 = k)) = true
  · rw [if_pos hany]
    exact h
  · rw [if_neg hany]
    have hk : k ∉ m.map Prod.fst := by
      rw [mapKeys_mem_iff_any]
      exact hany
    simp [List.nodup_append, h, hk]

theorem mapSet_keys_mem (m : List ((String × ℚ) × Expense)) (k : String × ℚ)
    (v : Expense) (k' : String × ℚ) :
    k' ∈ (mapSet m k v).map Prod.fst ↔ k' ∈ m.map Prod.fst ∨ k' = k := by
  rw [mapSet_keys]
  by_cases hany : m.any (fun p => decide (p.1 = k)) = true
  · rw [if_pos hany]
    constructor
    · exact Or.inl
    · rintro (h | rfl)
      · exact h
      · rw [mapKeys_mem_iff_any]
        exact hany
  · rw [if_neg hany]
    simp [List.mem_append]

theorem distinctRecurring_go_nodup (ck : String) :
    ∀ (l : List Expense) (m : List ((String × ℚ) × Expense)),
    (m.map Prod.fst).Nodup → ((l.foldl (recStep ck) m).map Prod.fst).Nodup
  | [], _, h => h
  | e :: es, m, h => by
    rw [List.foldl_cons]
    apply distinctRecurring_go_nodup ck es
    unfold recStep
    by_cases hc : (e.isRecurring && !(jsStartsWith e.date ck)) = true
    · rw [if_pos hc]
      exact mapSet_keys_nodup _ _ h
    · rw [if_neg hc]
      exact h

theorem distinctRecurring_go_keys (ck : String) :
    ∀ (l : List Expense) (m : List ((String × ℚ) × Expense)) (k : String × ℚ),
    k ∈ (l.foldl (recStep ck) m).map Prod.fst ↔
      k ∈ m.map Prod.fst ∨ ∃ e ∈ l, e.isRecurring = true ∧
        jsStartsWith e.date ck = false ∧ pairKey e = k
  | [], m, k => by simp
  | e :: es, m, k => by
    rw [List.foldl_cons, distinctRecurring_go_keys ck es _ k]
    unfold recStep
    by_cases hc : (e.isRecurring && !(jsStartsWith e.date ck)) = true
    · rw [if_pos hc, mapSet_keys_mem]
      have hrec : e.isRecurring = true := (Bool.and_eq_true_iff.mp hc).1
      have hsw : jsStartsWith e.date ck = false := by
        have := (Bool.and_eq_true_iff.mp hc).2
        simpa using this
      constructor
      · rintro ((h | rfl) | hex)
        · exact Or.inl h
        · exact Or.inr ⟨e, List.mem_cons_self e es, hrec, hsw, rfl⟩
        · obtain ⟨e', he', h1, h2, h3⟩ := hex
          exact Or.inr ⟨e', List.mem_cons_of_mem _ he', h1, h2, h3⟩
      · rintro (h | ⟨e', he', h1, h2, h3⟩)
        · exact Or.inl (Or.inl h)
        · rcases List.mem_cons.mp he' with rfl | he''
          · exact Or.inl (Or.inr h3.symm)
          · exact Or.inr ⟨e', he'', h1, h2, h3⟩
    · rw [if_neg hc]
      constructor
      · rintro (h | hex)
        · exact Or.inl h
        · obtain ⟨e', he', h1, h2, h3⟩ := hex
          exact Or.inr ⟨e', List.mem_cons_of_mem _ he', h1, h2, h3⟩
      · rintro (h | ⟨e', he', h1, h2, h3⟩)
        · exact Or.inl h
        · rcases List.mem_cons.mp he' with rfl | he''
          · exfalso
            apply hc
            rw [h1, h2]
            rfl
          · exact Or.inr ⟨e', he'', h1, h2, h3⟩

theorem distinctRecurring_go_mem (ck : String) :
    ∀ (l : List Expense) (m : List ((String × ℚ) × Expense))
      (q : (String × ℚ) × Expense),
    q ∈ l.foldl (recStep ck) m → q ∈ m ∨
      (q.2 ∈ l ∧ q.2.isRecurring = true ∧
        jsStartsWith q.2.date ck = false ∧ q.1 = pairKey q.2)
  | [], _, _, hq => Or.inl hq
  | e :: es, m, q, hq => by
    rw [List.foldl_cons] at hq
    rcases distinctRecurring_go_mem ck es _ q hq with h | h
    · unfold recStep at h
      by_cases hc : (e.isRecurring && !(jsStartsWith e.date ck)) = true
      · rw [if_pos hc] at h
        rcases mapSet_mem h with h1 | h1
        · exact Or.inl h1
        · right
          have hrec : e.isRecurring = true := (Bool.and_eq_true_iff.mp hc).1
          have hsw : jsStartsWith e.date ck = false := by
            have := (Bool.and_eq_true_iff.mp hc).2
            simpa using this
          rw [h1]
          exact ⟨List.mem_cons_self e es, hrec, hsw, rfl⟩
      · rw [if_neg hc] at h
        exact Or.inl h
    · exact Or.inr ⟨List.mem_cons_of_mem _ h.1, h.2.1, h.2.2.1, h.2.2.2⟩

theorem distinctRecurring_keys_mem (expenses : List Expense) (ck : String)
    (k : String × ℚ) :
    k ∈ (distinctRecurring expenses ck).map Prod.fst ↔
      ∃ e ∈ expenses, e.isRecurring = true ∧
        jsStartsWith e.date ck = false ∧ pairKey e = k := by
  rw [distinctRecurring, distinctRecurring_go_keys]
  simp

theorem distinctRecurring_mem {expenses : List Expense} {ck : String}
    {q : (String × ℚ) × Expense} (hq : q ∈ distinctRecurring expenses ck) :
    q.2 ∈ expenses ∧ q.2.isRecurring = true ∧
      jsStartsWith q.2.date ck = false ∧ q.1 = pairKey q.2 := by
  rcases distinctRecurring_go_mem ck expenses [] q hq with h | h
  · simp at h
  · exact h

theorem distinctRecurring_keys_nodup (expenses : List Expense) (ck : String) :
    ((distinctRecurring expenses ck).map Prod.fst).Nodup :=
  distinctRecurring_go_nodup ck expenses [] (by simp)

theorem existingKeys_mem (expenses : List Expense) (ck : String)
    (k : String × ℚ) :
    k ∈ existingKeys expenses ck ↔
      ∃ e ∈ expenses, jsStartsWith e.date ck = true ∧ pairKey e = k := by
  unfold existingKeys
  constructor
  · intro h
    obtain ⟨e, he, rfl⟩ := List.mem_map.mp h
    have hm := List.mem_filter.mp he
    exact ⟨e, hm.1, hm.2, rfl⟩
  · rintro ⟨e, he, hsw, rfl⟩
    exact List.mem_map.mpr ⟨e, List.mem_filter.mpr ⟨he, hsw⟩, rfl⟩

theorem recurringToAdd_keys_mem (expenses : List Expense) (ck : String)
    (k : String × ℚ) :
    k ∈ (recurringToAdd expenses ck).map Prod.fst ↔
      k ∈ (distinctRecurring expenses ck).map Prod.fst ∧
        k ∉ existingKeys expenses ck := by
  unfold recurringToAdd
  constructor
  · intro h
    obtain ⟨p, hp, rfl⟩ := List.mem_map.mp h
    have hm := List.mem_filter.mp hp
    refine ⟨List.mem_map.mpr ⟨p, hm.1, rfl⟩, ?_⟩
    have hb := hm.2
    rw [Bool.not_eq_true'] at hb
    intro hkmem
    have := (any_eq_mem (existingKeys expenses ck) p.1).mpr hkmem
    rw [hb] at this
    exact Bool.noConfusion this
  · rintro ⟨h1, h2⟩
    obtain ⟨p, hp, rfl⟩ := List.mem_map.mp h1
    refine List.mem_map.mpr ⟨p, List.mem_filter.mpr ⟨hp, ?_⟩, rfl⟩
    rw [Bool.not_eq_true']
    cases hb : (existingKeys expenses ck).any (fun k2 => decide (k2 = p.1)) with
    | false => rfl
    | true => exact absurd ((any_eq_mem _ _).mp hb) h2

theorem recurringToAdd_keys_nodup (expenses : List Expense) (ck : String) :
    ((recurringToAdd expenses ck).map Prod.fst).Nodup := by
  have hsub : List.Sublist (recurringToAdd expenses ck)
      (distinctRecurring expenses ck) := List.filter_sublist _
  exact (distinctRecurring_keys_nodup expenses ck).sublist (hsub.map Prod.fst)

theorem recurringToAdd_mem {expenses : List Expense} {ck : String}
    {q : (String × ℚ) × Expense} (hq : q ∈ recurringToAdd expenses ck) :
    q.2 ∈ expenses ∧ q.2.isRecurring = true ∧
      jsStartsWith q.2.date ck = false ∧ q.1 = pairKey q.2 :=
  distinctRecurring_mem (List.mem_of_mem_filter hq)

theorem assignIds_map_pairKey (f : Nat → String) (dk : String) :
    ∀ (i : Nat) (xs : List ((String × ℚ) × Expense)),
    (assignIds f dk i xs).map pairKey = xs.map (fun p => pairKey p.2)
  | _, [] => rfl
  | i, p :: rest => by
    simp [assignIds, pairKey, assignIds_map_pairKey f dk (i + 1) rest]

theorem assignIds_mem (f : Nat → String) (dk : String) :
    ∀ (i : Nat) (xs : List ((String × ℚ) × Expense)) {n : Expense},
    n ∈ assignIds f dk i xs →
    ∃ j, i ≤ j ∧ j < i + xs.length ∧
      ∃ p ∈ xs, n = { p.2 with id := f j, date := dk }
  | i, [], n, h => by simp [assignIds] at h
  | i, p :: rest, n, h => by
    rw [assignIds] at h
    rcases List.mem_cons.mp h with rfl | h'
    · exact ⟨i, le_refl i, by simp, p, List.mem_cons_self _ _, rfl⟩
    · obtain ⟨j, hj1, hj2, q, hq, hn⟩ := assignIds_mem f dk (i + 1) rest h'
      refine ⟨j, by omega, ?_, q, List.mem_cons_of_mem _ hq, hn⟩
      simp only [List.length_cons]
      omega

theorem assignIds_map_id (f : Nat → String) (dk : String) :
    ∀ (i : Nat) (xs : List ((String × ℚ) × Expense)),
    (assignIds f dk i xs).map Expense.id = (List.range' i xs.length).map f
  | _, [] => rfl
  | i, p :: rest => by
    rw [List.length_cons, List.range'_succ, List.map_cons, assignIds,
      List.map_cons, assignIds_map_id f dk (i + 1) rest]

theorem assignIds_date (f : Nat → String) (dk : String) :
    ∀ (i : Nat) (xs : List ((String × ℚ) × Expense)) {n : Expense},
    n ∈ assignIds f dk i xs → n.date = dk
  | i, [], n, h => by simp [assignIds] at h
  | i, p :: rest, n, h => by
    rw [assignIds] at h
    rcases List.mem_cons.mp h with rfl | h'
    · rfl
    · exact assignIds_date f dk (i + 1) rest h'

/-- C4: the carry-forward appends (changing nothing else) exactly one new
entry per distinct description+amount pair of the ledger's recurring
expenses that has no same-pair entry already dated in the target month;
each new entry is dated in the target month, carries a fresh id distinct
from all existing ids and from the other new ids, and preserves the
source's description, amount, category and recurring flag. -/
theorem C4_carry_forward (expenses : List Expense)
    (currentKey dayKey : String) (freshId : Nat → String)
    (hday : jsStartsWith dayKey currentKey = true)
    (hfresh : ∀ i < (recurringToAdd expenses currentKey).length,
      freshId i ∉ expenses.map Expense.id)
    (hinj : ∀ i < (recurringToAdd expenses currentKey).length,
      ∀ j < (recurringToAdd expenses currentKey).length,
      freshId i = freshId j → i = j) :
    ∃ news : List Expense,
      copyRecurringExpenses expenses currentKey dayKey freshId =
        expenses ++ news ∧
      (news.map pairKey).Nodup ∧
      (∀ p : String × ℚ, p ∈ news.map pairKey ↔
        ((∃ e ∈ expenses, e.isRecurring = true ∧ pairKey e = p) ∧
         ¬ (∃ e ∈ expenses, jsStartsWith e.date currentKey = true ∧
            pairKey e = p))) ∧
      (∀ n ∈ news, n.date = dayKey ∧
        jsStartsWith n.date currentKey = true ∧
        n.id ∉ expenses.map Expense.id ∧
        ∃ e ∈ expenses, e.isRecurring = true ∧
          e.description = n.description ∧ e.amount = n.amount ∧
          e.category = n.category ∧ e.isRecurring = n.isRecurring) ∧
      (news.map Expense.id).Nodup := by
  refine ⟨assignIds freshId dayKey 0 (recurringToAdd expenses currentKey),
    rfl, ?_, ?_, ?_, ?_⟩
  all_goals
    try rw [assignIds_map_pairKey]
  · -- pair nodup: the pushed pairs are the toAdd keys
    have hmapeq : (recurringToAdd expenses currentKey).map
        (fun p => pairKey p.2) =
        (recurringToAdd expenses currentKey).map Prod.fst := by
      apply List.map_congr_left
      intro p hp
      exact (recurringToAdd_mem hp).2.2.2.symm
    rw [hmapeq]
    exact recurringToAdd_keys_nodup expenses currentKey
  · -- pair membership characterization
    intro p
    have hmapeq : (recurringToAdd expenses currentKey).map
        (fun q => pairKey q.2) =
        (recurringToAdd expenses currentKey).map Prod.fst := by
      apply List.map_congr_left
      intro q hq
      exact (recurringToAdd_mem hq).2.2.2.symm
    rw [hmapeq, recurringToAdd_keys_mem, distinctRecurring_keys_mem,
      existingKeys_mem]
    constructor
    · rintro ⟨⟨e, he, hrec, _, hpk⟩, hnex⟩
      exact ⟨⟨e, he, hrec, hpk⟩, hnex⟩
    · rintro ⟨⟨e, he, hrec, hpk⟩, hnex⟩
      refine ⟨⟨e, he, hrec, ?_, hpk⟩, hnex⟩
      cases hsw : jsStartsWith e.date currentKey with
      | false => rfl
      | true => exact absurd ⟨e, he, hsw, hpk⟩ hnex
  · -- per-entry properties
    intro n hn
    obtain ⟨j, _, hj2, p, hp, rfl⟩ :=
      assignIds_mem freshId dayKey 0 (recurringToAdd expenses currentKey) hn
    obtain ⟨hmem, hrec, _, _⟩ := recurringToAdd_mem hp
    refine ⟨rfl, hday, ?_, p.2, hmem, hrec, rfl, rfl, rfl, rfl⟩
    exact hfresh j (by omega)
  · -- id nodup
    rw [assignIds_map_id]
    have hr : (List.range' 0 (recurringToAdd expenses currentKey).length).Nodup :=
      List.nodup_range' 0 (recurringToAdd expenses currentKey).length
    apply List.Nodup.map_on ?_ hr
    intro i hi j hj hij
    rw [List.mem_range'_1] at hi hj
    exact hinj i (by omega) j (by omega) hij

theorem C4_carry_forward_witness :
    jsStartsWith "2024-02-10" "2024-02" = true ∧
    ∃ news : List Expense,
      copyRecurringExpenses
        [⟨"a", "Najem", 100, CategoryType.NEEDS, "2024-01-05", true⟩]
        "2024-02" "2024-02-10"
        (fun i => String.mk (List.replicate (i + 1) 'n')) =
        [⟨"a", "Najem", 100, CategoryType.NEEDS, "2024-01-05", true⟩] ++ news ∧
      (news.map pairKey).Nodup ∧
      (∀ n ∈ news, n.date = "2024-02-10") :=
  ⟨by decide, by
    obtain ⟨news, h1, h2, -, h4, -⟩ := C4_carry_forward
      [⟨"a", "Najem", 100, CategoryType.NEEDS, "2024-01-05", true⟩]
      "2024-02" "2024-02-10"
      (fun i => String.mk (List.replicate (i + 1) 'n'))
      (by decide) (by decide) (by decide)
    exact ⟨news, h1, h2, fun n hn => (h4 n hn).1⟩⟩

theorem foldl_recStep_skip (ck : String) :
    ∀ (l : List Expense) (m : List ((String × ℚ) × Expense)),
    (∀ e ∈ l, jsStartsWith e.date ck = true) → l.foldl (recStep ck) m = m
  | [], _, _ => rfl
  | e :: es, m, h => by
    rw [List.foldl_cons]
    have hsw := h e (List.mem_cons_self e es)
    have hstep : recStep ck m e = m := by
      unfold recStep
      rw [hsw]
      simp
    rw [hstep]
    exact foldl_recStep_skip ck es m
      (fun e' he' => h e' (List.mem_cons_of_mem _ he'))

theorem distinctRecurring_append (l₁ l₂ : List Expense) (ck : String)
    (h : ∀ e ∈ l₂, jsStartsWith e.date ck = true) :
    distinctRecurring (l₁ ++ l₂) ck = distinctRecurring l₁ ck := by
  rw [distinctRecurring, List.foldl_append]
  exact foldl_recStep_skip ck l₂ _ h

theorem existingKeys_append (l₁ l₂ : List Expense) (ck : String) :
    existingKeys (l₁ ++ l₂) ck =
      existingKeys l₁ ck ++ existingKeys l₂ ck := by
  rw [existingKeys, List.filter_append, List.map_append]
  rfl

/-- C5: running the carry-forward twice for the same target month adds
nothing the second time — the ledger is unchanged by the second run. -/
theorem C5_carry_forward_idempotent (expenses : List Expense)
    (currentKey dayKey : String) (f g : Nat → String)
    (hday : jsStartsWith dayKey currentKey = true) :
    copyRecurringExpenses
      (copyRecurringExpenses expenses currentKey dayKey f)
      currentKey dayKey g =
    copyRecurringExpenses expenses currentKey dayKey f := by
  set news := assignIds f dayKey 0 (recurringToAdd expenses currentKey)
    with hnews
  have hdates : ∀ e ∈ news, jsStartsWith e.date currentKey = true := by
    intro e he
    rw [hnews] at he
    rw [assignIds_date f dayKey 0 _ he]
    exact hday
  have hdm : distinctRecurring (expenses ++ news) currentKey =
      distinctRecurring expenses currentKey :=
    distinctRecurring_append _ _ _ hdates
  have hpairs : news.map pairKey =
      (recurringToAdd expenses currentKey).map Prod.fst := by
    rw [hnews, assignIds_map_pairKey]
    apply List.map_congr_left
    intro q hq
    exact (recurringToAdd_mem hq).2.2.2.symm
  have htoAdd : recurringToAdd (expenses ++ news) currentKey = [] := by
    rw [recurringToAdd, hdm, List.filter_eq_nil_iff]
    intro p hp hcontra
    rw [Bool.not_eq_true'] at hcontra
    have hmem : p.1 ∈ existingKeys (expenses ++ news) currentKey := by
      by_cases hex : p.1 ∈ existingKeys expenses currentKey
      · rw [existingKeys_append]
        exact List.mem_append.mpr (Or.inl hex)
      · have hkmem : p.1 ∈ (recurringToAdd expenses currentKey).map Prod.fst := by
          rw [recurringToAdd_keys_mem]
          exact ⟨List.mem_map.mpr ⟨p, hp, rfl⟩, hex⟩
        have hpk : p.1 ∈ news.map pairKey := by
          rw [hpairs]
          exact hkmem
        obtain ⟨n, hn, hnpk⟩ := List.mem_map.mp hpk
        rw [existingKeys_append]
        exact List.mem_append.mpr (Or.inr
          ((existingKeys_mem news currentKey p.1).mpr
            ⟨n, hn, hdates n hn, hnpk⟩))
    have hany := (any_eq_mem (existingKeys (expenses ++ news) currentKey)
      p.1).mpr hmem
    rw [hcontra] at hany
    exact Bool.noConfusion hany
  have houter : copyRecurringExpenses expenses currentKey dayKey f =
      expenses ++ news := rfl
  rw [houter, copyRecurringExpenses, htoAdd]
  simp [assignIds]

theorem C5_carry_forward_idempotent_witness :
    copyRecurringExpenses
      (copyRecurringExpenses
        [⟨"a", "Najem", 100, CategoryType.NEEDS, "2024-01-05", true⟩]
        "2024-02" "2024-02-10"
        (fun i => String.mk (List.replicate (i + 1) 'n')))
      "2024-02" "2024-02-10"
      (fun i => String.mk (List.replicate (i + 1) 'm')) =
    copyRecurringExpenses
      [⟨"a", "Najem", 100, CategoryType.NEEDS, "2024-01-05", true⟩]
      "2024-02" "2024-02-10"
      (fun i => String.mk (List.replicate (i + 1) 'n')) :=
  C5_carry_forward_idempotent _ "2024-02" "2024-02-10" _ _ (by decide)

/-! ## Error containment at the service adapter (geminiService.ts)

The SDK call and `JSON.parse` are opaque; their outcome is a parameter.
A thrown JS error is modelled by `JsError`: the message string, plus the
outcome of `formatError`'s brace-extraction and `JSON.parse` of the
message (`some info` exactly when the message embeds a parseable
Google-SDK error object, i.e. the code reaches `parsed.error`). -/

/-- What `formatError` reads out of a parsed Google-SDK error object:
the coalesced `reason` (`error.details?.[0]?.reason || error.status`),
`error.code` and `error.message`. -/
structure GoogleErrorInfo where
  reason : Option String
  code : Option Int
  message : String
deriving DecidableEq

/-- A thrown JS error as seen by `formatError`. -/
structure JsError where
  msg : String
  parsed : Option GoogleErrorInfo
deriving DecidableEq

/-- geminiService.ts invalid-key message (lines 89-91; the quotes around
Application restrictions are omitted here). -/
def invalidKeyMsg : String :=
  "AI Chyba: Neplatný API klíč. Zkontrolujte v Google Cloud Console, zda nemáte nastavené Application restrictions (IP/Referer), které blokují Vercel."

/-- geminiService.ts `formatError`: translate a caught failure into a
human-readable Czech message. -/
def formatError (e : JsError) : String :=
  match e.parsed with
  | some info =>
    if info.reason = some "API_KEY_INVALID" ∨ info.code = some 400 then
      invalidKeyMsg
    else "AI Chyba: " ++ info.message
  | none => "Chyba: " ++ e.msg

/-- The error thrown by `getGeminiClient` when no API key is configured
(its plain message contains no brace, so it never parses as JSON;
the quotes around VITE_API_KEY are omitted here). -/
def missingKeyError : JsError :=
  ⟨"Chybí API klíč. Ve Vercelu v sekci Settings > Environment Variables přidejte VITE_API_KEY.", none⟩

/-- geminiService.ts `analyzeBudget`, failure structure: the whole body is
one `try`; a missing key or a failed call lands in `catch`, which RETURNS
`formatError(error)` (type `String`: the adapter never throws). -/
def analyzeBudget (apiKey : Option String)
    (call : Except JsError String) : String :=
  match apiKey with
  | none => formatError missingKeyError
  | some _ =>
    match call with
    | .ok t => if t = "" then "Nepodařilo se vygenerovat radu." else t
    | .error e => formatError e

/-- geminiService.ts `processBankStatement`, failure structure: the `call`
parameter covers the SDK call plus `JSON.parse` (`.ok none` models an
empty `response.text`); the `catch` THROWS
`new Error(formatError(error))`, modelled as `Except.error`. -/
def processBankStatement (apiKey : Option String)
    (call : Except JsError (Option (List BankRecord))) :
    Except String ImportResult :=
  match apiKey with
  | none => .error (formatError missingKeyError)
  | some _ =>
    match call with
    | .error e => .error (formatError e)
    | .ok none => .ok ⟨[], 0⟩
    | .ok (some records) => .ok (postProcess records)

/-- C7: on every failure (missing key or thrown call) the advisory path
returns the translated message as its result string and never throws,
while the import path throws an error carrying the translated message;
the translation always yields one of the human-readable shapes, so the
raw failure is not propagated unchanged. -/
theorem C7_error_containment (k : String) (e : JsError)
    (call : Except JsError String)
    (call' : Except JsError (Option (List BankRecord))) :
    analyzeBudget none call = formatError missingKeyError ∧
    analyzeBudget (some k) (.error e) = formatError e ∧
    processBankStatement none call' = .error (formatError missingKeyError) ∧
    processBankStatement (some k) (.error e) = .error (formatError e) ∧
    (formatError e = invalidKeyMsg ∨
      (∃ m, formatError e = "AI Chyba: " ++ m) ∨
      formatError e = "Chyba: " ++ e.msg) := by
  refine ⟨rfl, rfl, rfl, rfl, ?_⟩
  cases hp : e.parsed with
  | none => exact Or.inr (Or.inr (by simp [formatError, hp]))
  | some info =>
    by_cases hc : info.reason = some "API_KEY_INVALID" ∨ info.code = some 400
    · exact Or.inl (by simp [formatError, hp, hc])
    · exact Or.inr (Or.inl ⟨info.message, by simp [formatError, hp, hc]⟩)

end Budget
